import Mathlib

/-!
# Verification of the `tcm_analysis` C extension kernels

Shallow embedding of the five numeric kernels in
`src/services/common/computing/extensions/c_algorithms/tcm_analysis.c`.

Modelling conventions:
* A float vector is a `List ℝ`; a row-major matrix is a `List (List ℝ)`
  (list of rows).  The C code reads flat buffers with dimension metadata;
  under the documented precondition that all declared dimensions agree,
  indexing `data[i * cols + j]` is exactly row `i`, entry `j`.
* Float arithmetic is idealized as real arithmetic (`Real.exp`, `Real.sqrt`,
  `Real.tanh` for `expf`, `sqrtf`, `tanhf`).
* The only kernel whose division can have a zero divisor is
  `pattern_matching` (dividing by `pattern_length`, which can be `0`).
  IEEE division by zero produces a non-finite value (NaN when the dividend
  is also 0), which real numbers cannot represent, so that one division is
  modelled by `fdiv` returning `Option ℝ`, with `none` standing for the
  non-finite IEEE result.  Every other division in the source has a
  provably nonzero divisor (`1 + exp _ > 0`, `sqrt (variance + 1e-8) > 0`,
  and the cosine division is guarded by an explicit `> 0` branch), so
  plain real division is a faithful model there.
-/

open Real

namespace TCMAnalysis

/-- Sigmoid activation, from line 53 of the source:
`result_data[i] = 1.0f / (1.0f + expf(-score))`. -/
noncomputable def sigmoid (x : ℝ) : ℝ := 1 / (1 + Real.exp (-x))

/-- `tcm_syndrome_analysis` (lines 42–54): for each pattern row,
accumulate `symptoms[j] * weights[j] * patterns[i][j]` over `j` and apply
the sigmoid.  The inner loop runs `j < n_symptoms` and reads `weights[j]`
and `patterns[i * n_symptoms + j]`; under the equal-dimension precondition
this is the pointwise triple product, which `zipWith` expresses. -/
noncomputable def tcm_syndrome_analysis (symptoms weights : List ℝ)
    (patterns : List (List ℝ)) : List ℝ :=
  patterns.map (fun row =>
    sigmoid ((List.zipWith (· * ·)
      (List.zipWith (· * ·) symptoms weights) row).sum))

/-- Column `j` of a row-major matrix (the entries `data[i * cols + j]`
traversed by the inner loops of `health_data_normalize`). -/
def column (data : List (List ℝ)) (j : ℕ) : List ℝ :=
  data.map (fun row => row.getD j 0)

/-- The mean accumulation of `health_data_normalize` (lines 89–92):
`mean = (Σ_i col[i]) / n_samples`. -/
noncomputable def colMean (col : List ℝ) : ℝ := col.sum / col.length

/-- The variance accumulation of `health_data_normalize` (lines 95–99):
population variance, divisor `n_samples`. -/
noncomputable def colVar (col : List ℝ) : ℝ :=
  ((col.map (fun x => (x - colMean col) ^ 2)).sum) / col.length

/-- `health_data_normalize` (lines 60–109): per column `j`, compute mean
and population variance, then write
`(data[i][j] - mean) / sqrt(variance + 1e-8)`.  The C loop is column-outer
and writes `result[i * n_features + j]`; assembling the same entries
row-by-row gives the identical matrix. -/
noncomputable def health_data_normalize (data : List (List ℝ)) :
    List (List ℝ) :=
  data.map (fun row =>
    (List.range row.length).map (fun j =>
      (row.getD j 0 - colMean (column data j)) /
        Real.sqrt (colVar (column data j) + 1e-8)))

/-- The squared-norm accumulation used by `nutrition_optimization`
(lines 136–139 and 151): `Σ x*x`. -/
def sqnorm (v : List ℝ) : ℝ := (v.map (fun x => x * x)).sum

/-- `nutrition_optimization` (lines 112–165): profile L2 norm computed
once before the loop; per food row, dot product and row norm accumulated
in one pass; then the guarded cosine similarity:
`dot / (‖p‖·‖row‖)` if both norms are `> 0`, else `0`.  The C locals
(`profile_norm`, `dot_product`, `food_norm`) are inlined, which changes
nothing since the computation is pure. -/
noncomputable def nutrition_optimization (profile : List ℝ)
    (foods : List (List ℝ)) : List ℝ :=
  foods.map (fun row =>
    if Real.sqrt (sqnorm profile) > 0 ∧ Real.sqrt (sqnorm row) > 0 then
      (List.zipWith (· * ·) profile row).sum /
        (Real.sqrt (sqnorm profile) * Real.sqrt (sqnorm row))
    else 0)

/-- `biometric_processing` (lines 168–207): elementwise, strictly above
the threshold apply `tanh(value - threshold)`, otherwise scale by `0.1`. -/
noncomputable def biometric_processing (biomarkers : List (List ℝ))
    (threshold : ℝ) : List (List ℝ) :=
  biomarkers.map (fun row =>
    row.map (fun value =>
      if value > threshold then Real.tanh (value - threshold)
      else value * 0.1))

/-- IEEE float division as performed at line 243
(`similarity / pattern_length`): a zero divisor yields a non-finite
result (`NaN` when the dividend is also zero, as happens there), which
`none` models; otherwise the real quotient. -/
noncomputable def fdiv (x y : ℝ) : Option ℝ :=
  if y = 0 then none else some (x / y)

/-- The Gaussian-similarity accumulation of `pattern_matching`
(lines 238–241): `Σ_j exp(-(query[j] - row[j])²)`. -/
noncomputable def gaussRow (query row : List ℝ) : ℝ :=
  ((query.zip row).map (fun p => Real.exp (-(p.1 - p.2) ^ 2))).sum

/-- `pattern_matching` (lines 210–247): per database row, the Gaussian
similarity sum divided by the row length (`pattern_length`,
`PyArray_DIM(database, 1)`; equal to each row's length under the matrix
invariant).  The division is `fdiv` because `pattern_length` can be 0. -/
noncomputable def pattern_matching (query : List ℝ)
    (database : List (List ℝ)) : List (Option ℝ) :=
  database.map (fun row => fdiv (gaussRow query row) row.length)

/-! ## List-indexing and summation helpers -/

/-- `getD` through `map`, at an in-range index. -/
lemma getD_map {α β : Type} (f : α → β) (l : List α) (j : ℕ)
    (h : j < l.length) (d : β) (d' : α) :
    (l.map f).getD j d = f (l.getD j d') := by
  rw [List.getD_eq_getElem _ d (by simpa using h),
    List.getD_eq_getElem _ d' h, List.getElem_map]

/-- A `zipWith` sum as a `Finset.range` sum over positional entries. -/
lemma sum_zipWith_range (f : ℝ → ℝ → ℝ) :
    ∀ (a b : List ℝ), b.length = a.length →
      (List.zipWith f a b).sum =
        ∑ j ∈ Finset.range a.length, f (a.getD j 0) (b.getD j 0) := by
  intro a
  induction a with
  | nil =>
    intro b hb
    simp
  | cons x a ih =>
    intro b hb
    cases b with
    | nil => simp at hb
    | cons y b =>
      simp only [List.length_cons] at hb
      rw [List.zipWith_cons_cons, List.sum_cons, List.length_cons,
        Finset.sum_range_succ']
      simp only [List.getD_cons_succ, List.getD_cons_zero]
      rw [ih b (by omega)]
      ring

/-- A mapped sum as a `Finset.range` sum over positional entries. -/
lemma sum_map_range {α : Type} (f : α → ℝ) (d : α) :
    ∀ l : List α,
      (l.map f).sum = ∑ j ∈ Finset.range l.length, f (l.getD j d) := by
  intro l
  induction l with
  | nil => simp
  | cons x l ih =>
    rw [List.map_cons, List.sum_cons, List.length_cons,
      Finset.sum_range_succ']
    simp only [List.getD_cons_succ, List.getD_cons_zero]
    rw [ih]
    ring

/-- Sum of an affinely transformed list. -/
lemma sum_map_affine (a b : ℝ) :
    ∀ l : List ℝ,
      (l.map (fun x => (x - a) * b)).sum = (l.sum - l.length * a) * b := by
  intro l
  induction l with
  | nil => simp
  | cons x l ih =>
    simp only [List.map_cons, List.sum_cons, List.length_cons, ih]
    push_cast
    ring

/-- Sum of squares of a scaled, centred list. -/
lemma sum_map_sq_scale (a b : ℝ) :
    ∀ l : List ℝ,
      (l.map (fun x => ((x - a) * b) ^ 2)).sum =
        (l.map (fun x => (x - a) ^ 2)).sum * b ^ 2 := by
  intro l
  induction l with
  | nil => simp
  | cons x l ih =>
    simp only [List.map_cons, List.sum_cons, ih]
    ring

/-- The squared norm is nonnegative. -/
lemma sqnorm_nonneg (v : List ℝ) : 0 ≤ sqnorm v := by
  refine List.sum_nonneg ?_
  intro x hx
  obtain ⟨y, _, rfl⟩ := List.mem_map.mp hx
  exact mul_self_nonneg y

/-- Squared norm of a scaled vector. -/
lemma sqnorm_map_scale (c : ℝ) (v : List ℝ) :
    sqnorm (v.map (fun x => c * x)) = c ^ 2 * sqnorm v := by
  induction v with
  | nil => simp [sqnorm]
  | cons x v ih =>
    simp only [sqnorm, List.map_cons, List.sum_cons] at ih ⊢
    rw [ih]
    ring

/-- Dot product of a vector with its own scaling. -/
lemma dot_self_scale (c : ℝ) (v : List ℝ) :
    (List.zipWith (· * ·) v (v.map (fun x => c * x))).sum =
      c * sqnorm v := by
  induction v with
  | nil => simp [sqnorm]
  | cons x v ih =>
    simp only [sqnorm, List.map_cons, List.zipWith_cons_cons,
      List.sum_cons] at ih ⊢
    rw [ih]
    ring

/-! ## Sigmoid range -/

/-- The sigmoid is strictly positive. -/
lemma sigmoid_pos (x : ℝ) : 0 < sigmoid x := by
  have h := Real.exp_pos (-x)
  rw [sigmoid]
  positivity

/-- The sigmoid is strictly below one. -/
lemma sigmoid_lt_one (x : ℝ) : sigmoid x < 1 := by
  have h := Real.exp_pos (-x)
  rw [sigmoid, div_lt_one (by linarith)]
  linarith

/-- The column mean as a `Finset.range` sum over row indices. -/
lemma colMean_eq (data : List (List ℝ)) (j : ℕ) :
    colMean (column data j) =
      (∑ k ∈ Finset.range data.length, (data.getD k []).getD j 0) /
        data.length := by
  rw [colMean, column, sum_map_range _ [] data, List.length_map]

/-- The column variance as a `Finset.range` sum over row indices. -/
lemma colVar_eq (data : List (List ℝ)) (j : ℕ) :
    colVar (column data j) =
      (∑ k ∈ Finset.range data.length,
        ((data.getD k []).getD j 0 - colMean (column data j)) ^ 2) /
        data.length := by
  rw [colVar, sum_map_range _ 0 (column data j)]
  rw [show (column data j).length = data.length from by
    rw [column, List.length_map]]
  congr 1
  refine Finset.sum_congr rfl ?_
  intro k hk
  rw [column, getD_map _ data k (Finset.mem_range.mp hk) 0 []]

/-- The row returned by `health_data_normalize` at an in-range index. -/
lemma health_data_normalize_getD_row (data : List (List ℝ)) (i : ℕ)
    (hi : i < data.length) :
    (health_data_normalize data).getD i [] =
      (List.range (data.getD i []).length).map (fun j =>
        ((data.getD i []).getD j 0 - colMean (column data j)) /
          Real.sqrt (colVar (column data j) + 1e-8)) := by
  simp only [health_data_normalize]
  exact getD_map _ data i hi [] []

/-- The entry of `health_data_normalize` at an in-range position. -/
lemma health_data_normalize_entry (data : List (List ℝ)) (i j : ℕ)
    (hi : i < data.length) (hj : j < (data.getD i []).length) :
    ((health_data_normalize data).getD i []).getD j 0 =
      ((data.getD i []).getD j 0 - colMean (column data j)) /
        Real.sqrt (colVar (column data j) + 1e-8) := by
  rw [health_data_normalize_getD_row data i hi,
    getD_map _ _ j (by simpa using hj) 0 0]
  have hrj : (List.range (data.getD i []).length).getD j 0 = j := by
    rw [List.getD_eq_getElem _ 0 (by simpa using hj), List.getElem_range]
  rw [hrj]

/-- Sum of a constant list. -/
lemma sum_of_const (v : ℝ) :
    ∀ l : List ℝ, (∀ x ∈ l, x = v) → l.sum = l.length * v := by
  intro l
  induction l with
  | nil => simp
  | cons x l ih =>
    intro h
    rw [List.sum_cons, List.length_cons, ih (fun y hy => h y (by simp [hy])),
      h x (by simp)]
    push_cast
    ring

/-- The column variance is nonnegative. -/
lemma colVar_nonneg (col : List ℝ) : 0 ≤ colVar col := by
  rw [colVar]
  refine div_nonneg (List.sum_nonneg ?_) (Nat.cast_nonneg _)
  intro x hx
  obtain ⟨y, _, rfl⟩ := List.mem_map.mp hx
  positivity

/-- Column `j` of the normalized matrix is the centred, scaled column `j`
of the input (for a matrix whose rows all have width `C > j`). -/
lemma column_normalize (data : List (List ℝ)) (C j : ℕ)
    (hrows : ∀ row ∈ data, row.length = C) (hj : j < C) :
    column (health_data_normalize data) j =
      (column data j).map (fun x =>
        (x - colMean (column data j)) /
          Real.sqrt (colVar (column data j) + 1e-8)) := by
  rw [column, health_data_normalize, List.map_map, column, List.map_map]
  refine List.map_congr_left ?_
  intro row hrow
  simp only [Function.comp]
  have hl : row.length = C := hrows row hrow
  rw [getD_map _ _ j (by rw [List.length_range, hl]; exact hj) 0 0]
  have hrj : (List.range row.length).getD j 0 = j := by
    rw [List.getD_eq_getElem _ 0 (by rw [List.length_range, hl]; exact hj),
      List.getElem_range]
  rw [hrj]
  simp only [column]

/-- Centring a nonempty list by its own mean and scaling gives mean 0. -/
lemma colMean_center_scale (col : List ℝ) (hcol : col ≠ []) (s : ℝ) :
    colMean (col.map (fun x => (x - colMean col) / s)) = 0 := by
  have hn0 : (col.length : ℝ) ≠ 0 :=
    Nat.cast_ne_zero.mpr (List.length_pos.mpr hcol).ne'
  rw [colMean, List.length_map]
  simp only [div_eq_mul_inv]
  rw [sum_map_affine]
  rw [show col.sum - (col.length : ℝ) * colMean col = 0 from by
    simp only [colMean]
    field_simp]
  simp

/-- Centring a nonempty list by its own mean and dividing by
`sqrt (variance + 1e-8)` gives variance `V / (V + 1e-8)`. -/
lemma colVar_center_scale (col : List ℝ) (hcol : col ≠ []) :
    colVar (col.map (fun x =>
      (x - colMean col) / Real.sqrt (colVar col + 1e-8))) =
      colVar col / (colVar col + 1e-8) := by
  have hn0 : (col.length : ℝ) ≠ 0 :=
    Nat.cast_ne_zero.mpr (List.length_pos.mpr hcol).ne'
  have hV := colVar_nonneg col
  have hVpos : (0 : ℝ) < colVar col + 1e-8 := by linarith
  have hsq : Real.sqrt (colVar col + 1e-8) ^ 2 = colVar col + 1e-8 :=
    Real.sq_sqrt hVpos.le
  have hsum : (col.map (fun x => (x - colMean col) ^ 2)).sum =
      colVar col * col.length := by
    simp only [colVar]
    field_simp
  calc colVar (col.map (fun x =>
          (x - colMean col) / Real.sqrt (colVar col + 1e-8)))
      = ((col.map (fun x =>
            (x - colMean col) / Real.sqrt (colVar col + 1e-8))).map
            (fun y => (y - colMean (col.map (fun x =>
              (x - colMean col) / Real.sqrt (colVar col + 1e-8)))) ^ 2)).sum /
          (col.map (fun x =>
            (x - colMean col) / Real.sqrt (colVar col + 1e-8))).length :=
        rfl
    _ = colVar col / (colVar col + 1e-8) := by
        rw [colMean_center_scale col hcol]
        simp only [sub_zero, List.map_map, List.length_map,
          Function.comp_def, div_eq_mul_inv]
        rw [sum_map_sq_scale, hsum, inv_pow, hsq]
        field_simp
        ring

/-- The mean of a normalized column is exactly zero. -/
lemma colMean_normalize_eq_zero (data : List (List ℝ)) (C j : ℕ)
    (hrows : ∀ row ∈ data, row.length = C) (hj : j < C)
    (hne : data ≠ []) :
    colMean (column (health_data_normalize data) j) = 0 := by
  rw [column_normalize data C j hrows hj]
  exact colMean_center_scale _ (by simp [column, hne]) _

/-- The variance of a normalized column is `V / (V + 1e-8)` where `V` is
the input column's population variance. -/
lemma colVar_normalize (data : List (List ℝ)) (C j : ℕ)
    (hrows : ∀ row ∈ data, row.length = C) (hj : j < C)
    (hne : data ≠ []) :
    colVar (column (health_data_normalize data) j) =
      colVar (column data j) / (colVar (column data j) + 1e-8) := by
  rw [column_normalize data C j hrows hj]
  exact colVar_center_scale _ (by simp [column, hne])

/-- A list of reals bounded by 1 sums to at most its length. -/
lemma sum_le_length : ∀ l : List ℝ, (∀ x ∈ l, x ≤ 1) → l.sum ≤ l.length := by
  intro l
  induction l with
  | nil => simp
  | cons x l ih =>
    intro h
    rw [List.sum_cons, List.length_cons]
    have hx := h x (by simp)
    have hl := ih (fun y hy => h y (by simp [hy]))
    push_cast
    linarith

/-- If a list of reals bounded by 1 sums to exactly its length, every
element is 1. -/
lemma all_eq_one_of_sum_eq_length :
    ∀ l : List ℝ, (∀ x ∈ l, x ≤ 1) → l.sum = l.length →
      ∀ x ∈ l, x = 1 := by
  intro l
  induction l with
  | nil =>
    intro _ _ x hx
    simp at hx
  | cons y l ih =>
    intro h hsum x hx
    have hy := h y (by simp)
    have hl : l.sum ≤ l.length :=
      sum_le_length l (fun z hz => h z (by simp [hz]))
    rw [List.sum_cons, List.length_cons] at hsum
    push_cast at hsum
    have hy1 : y = 1 := by linarith
    have hlsum : l.sum = l.length := by linarith
    rcases List.mem_cons.mp hx with rfl | hx'
    · exact hy1
    · exact ih (fun z hz => h z (by simp [hz])) hlsum x hx'

/-- Lists whose zipped pairs agree componentwise are equal. -/
lemma eq_of_zip_eq :
    ∀ (a b : List ℝ), a.length = b.length →
      (∀ p ∈ a.zip b, p.1 = p.2) → b = a := by
  intro a
  induction a with
  | nil =>
    intro b hb _
    cases b with
    | nil => rfl
    | cons y b => simp at hb
  | cons x a ih =>
    intro b hb h
    cases b with
    | nil => simp at hb
    | cons y b =>
      have h1 : x = y := h (x, y) (by simp [List.zip_cons_cons])
      have h2 : b = a := ih b (by simpa using hb)
        (fun p hp => h p (by simp [List.zip_cons_cons, hp]))
      rw [← h1, h2]

/-- A pair drawn from a list zipped with itself has equal components. -/
lemma fst_eq_snd_of_mem_zip_self :
    ∀ (l : List ℝ) (p : ℝ × ℝ), p ∈ l.zip l → p.1 = p.2 := by
  intro l
  induction l with
  | nil =>
    intro p hp
    simp at hp
  | cons x l ih =>
    intro p hp
    rcases List.mem_cons.mp (by simpa [List.zip_cons_cons] using hp) with
      rfl | hp'
    · rfl
    · exact ih p hp'

/-- The Gaussian row sum as a `Finset.range` sum over positions. -/
lemma gaussRow_eq (q row : List ℝ) (h : row.length = q.length) :
    gaussRow q row = ∑ k ∈ Finset.range q.length,
      Real.exp (-(q.getD k 0 - row.getD k 0) ^ 2) := by
  have hz : (q.zip row).length = q.length := by
    rw [List.length_zip, h, min_self]
  rw [gaussRow, sum_map_range _ ((0 : ℝ), (0 : ℝ)) (q.zip row), hz]
  refine Finset.sum_congr rfl ?_
  intro k hk
  have hkq : k < q.length := Finset.mem_range.mp hk
  rw [List.getD_eq_getElem _ _ (by rw [hz]; exact hkq), List.getElem_zip,
    ← List.getD_eq_getElem q 0 hkq,
    ← List.getD_eq_getElem row 0 (by omega)]

/-- Per-row properties of the Gaussian similarity quotient: for a
nonempty query and a row of matching width, the quotient is in `(0, 1]`
and equals 1 exactly when the row equals the query. -/
lemma gauss_quotient_props (q row : List ℝ) (hq : 1 ≤ q.length)
    (hlen : row.length = q.length) :
    0 < gaussRow q row / row.length ∧
    gaussRow q row / row.length ≤ 1 ∧
    (gaussRow q row / row.length = 1 ↔ row = q) := by
  have hL : (0 : ℝ) < (row.length : ℕ) := by
    rw [hlen]
    exact_mod_cast hq
  have hterms_len : ((q.zip row).map
      (fun p => Real.exp (-(p.1 - p.2) ^ 2))).length = q.length := by
    rw [List.length_map, List.length_zip, hlen, min_self]
  have hterms_ne : ((q.zip row).map
      (fun p => Real.exp (-(p.1 - p.2) ^ 2))) ≠ [] := by
    intro hnil
    rw [hnil] at hterms_len
    simp at hterms_len
    omega
  have hterms_le : ∀ x ∈ ((q.zip row).map
      (fun p => Real.exp (-(p.1 - p.2) ^ 2))), x ≤ 1 := by
    intro x hx
    obtain ⟨p, _, rfl⟩ := List.mem_map.mp hx
    rw [show (1 : ℝ) = Real.exp 0 from Real.exp_zero.symm]
    exact Real.exp_le_exp.mpr (neg_nonpos.mpr (sq_nonneg _))
  have hsum_le : gaussRow q row ≤ (row.length : ℕ) := by
    rw [gaussRow]
    calc ((q.zip row).map (fun p => Real.exp (-(p.1 - p.2) ^ 2))).sum
        ≤ (((q.zip row).map
            (fun p => Real.exp (-(p.1 - p.2) ^ 2))).length : ℝ) :=
          sum_le_length _ hterms_le
      _ = (row.length : ℕ) := by rw [hterms_len, hlen]
  have hpos : 0 < gaussRow q row := by
    rw [gaussRow]
    refine List.sum_pos _ ?_ hterms_ne
    intro x hx
    obtain ⟨p, _, rfl⟩ := List.mem_map.mp hx
    exact Real.exp_pos _
  refine ⟨div_pos hpos hL, (div_le_one hL).mpr hsum_le, ?_, ?_⟩
  · intro hv1
    have hsum : gaussRow q row = (row.length : ℕ) :=
      (div_eq_one_iff_eq (ne_of_gt hL)).mp hv1
    have hall : ∀ x ∈ ((q.zip row).map
        (fun p => Real.exp (-(p.1 - p.2) ^ 2))), x = 1 := by
      refine all_eq_one_of_sum_eq_length _ hterms_le ?_
      rw [← gaussRow, hsum, hterms_len, hlen]
    refine eq_of_zip_eq q row hlen.symm ?_
    intro p hp
    have h1 : Real.exp (-(p.1 - p.2) ^ 2) = 1 :=
      hall _ (List.mem_map.mpr ⟨p, hp, rfl⟩)
    have h0 : -(p.1 - p.2) ^ 2 = 0 := (Real.exp_eq_one_iff _).mp h1
    have : (p.1 - p.2) ^ 2 = 0 := by linarith
    have := pow_eq_zero_iff (n := 2) (by omega) |>.mp this
    linarith [sub_eq_zero.mp this]
  · intro hrq
    subst hrq
    have hconst : ((row.zip row).map
        (fun p => Real.exp (-(p.1 - p.2) ^ 2))).sum =
        (((row.zip row).map
          (fun p => Real.exp (-(p.1 - p.2) ^ 2))).length : ℝ) * 1 := by
      refine sum_of_const 1 _ ?_
      intro x hx
      obtain ⟨p, hp, rfl⟩ := List.mem_map.mp hx
      rw [fst_eq_snd_of_mem_zip_self row p hp]
      simp
    rw [gaussRow, hconst, List.length_map, List.length_zip, min_self,
      mul_one]
    exact div_self (ne_of_gt hL)

/-- Numeric bounds for `exp (-2)`. -/
lemma exp_neg_two_bounds :
    0.1353 < Real.exp (-2) ∧ Real.exp (-2) < 0.1354 := by
  have h1 := Real.exp_one_gt_d9
  have h2 := Real.exp_one_lt_d9
  have hE : 0 < Real.exp 1 := Real.exp_pos 1
  have he2 : Real.exp (-2) = (Real.exp 1 * Real.exp 1)⁻¹ := by
    rw [show (-2 : ℝ) = -(1 + 1) by norm_num, Real.exp_neg, Real.exp_add]
  have hEE1 : Real.exp 1 * Real.exp 1 < 7.3890561 := by nlinarith
  have hEE2 : 7.389056 < Real.exp 1 * Real.exp 1 := by nlinarith
  have hx : Real.exp (-2) * (Real.exp 1 * Real.exp 1) = 1 := by
    rw [he2]
    field_simp
  constructor <;> nlinarith

/-- The sigmoid of 2 is within `1/1000` of `0.8808`. -/
lemma sigmoid_two_approx : |sigmoid 2 - 0.8808| < 1 / 1000 := by
  obtain ⟨hl, hu⟩ := exp_neg_two_bounds
  have hpos : (0 : ℝ) < 1 + Real.exp (-2) := by positivity
  have h1 : sigmoid 2 < 0.8809 := by
    rw [sigmoid, div_lt_iff₀ hpos]
    nlinarith
  have h2 : (0.8807 : ℝ) < sigmoid 2 := by
    rw [sigmoid, lt_div_iff₀ hpos]
    nlinarith
  rw [abs_sub_lt_iff]
  constructor <;> linarith

/-! ## Claim theorems -/

/-- C1: `tcm_syndrome_analysis` returns one value per pattern row, each
equal to `sigmoid (Σ_j s[j]·w[j]·P[i][j])`; in particular for
`s = [1,1]`, `w = [1,1]`, `P = [[1,1]]` the single output is
`sigmoid 2 ≈ 0.8808`. -/
theorem C1_syndrome_formula_and_example :
    (∀ (s w : List ℝ) (P : List (List ℝ)),
      w.length = s.length → (∀ row ∈ P, row.length = s.length) →
      (tcm_syndrome_analysis s w P).length = P.length ∧
      ∀ i, i < P.length →
        (tcm_syndrome_analysis s w P).getD i 0 =
          sigmoid (∑ j ∈ Finset.range s.length,
            s.getD j 0 * w.getD j 0 * (P.getD i []).getD j 0)) ∧
    tcm_syndrome_analysis [1, 1] [1, 1] [[1, 1]] = [sigmoid 2] ∧
    |sigmoid 2 - 0.8808| < 1 / 1000 := by
  refine ⟨?_, ?_, sigmoid_two_approx⟩
  · intro s w P hw hP
    refine ⟨by simp [tcm_syndrome_analysis], ?_⟩
    intro i hi
    have hA : (List.zipWith (· * ·) s w).length = s.length := by
      rw [List.length_zipWith, hw, min_self]
    have hmem : P.getD i [] ∈ P := by
      rw [List.getD_eq_getElem _ [] hi]
      exact List.getElem_mem hi
    have hrowlen : (P.getD i []).length = s.length := hP _ hmem
    simp only [tcm_syndrome_analysis]
    rw [getD_map _ P i hi 0 []]
    congr 1
    rw [sum_zipWith_range _ _ _ (by rw [hrowlen, hA]), hA]
    refine Finset.sum_congr rfl ?_
    intro j hj
    have hjs : j < s.length := Finset.mem_range.mp hj
    rw [List.getD_eq_getElem (List.zipWith (· * ·) s w) 0 (by omega),
      List.getElem_zipWith,
      ← List.getD_eq_getElem s 0 hjs,
      ← List.getD_eq_getElem w 0 (by omega)]
  · simp only [tcm_syndrome_analysis, List.zipWith_cons_cons,
      List.zipWith_nil_right, List.map_cons, List.map_nil]
    norm_num

/-- Numeric bounds for the standard deviation `sqrt (2/3 + 1e-8)` of the
column `[1, 2, 3]`. -/
lemma sqrt_two_thirds_eps_bounds :
    0.8164 < Real.sqrt (2 / 3 + 1e-8) ∧
      Real.sqrt (2 / 3 + 1e-8) < 0.8166 := by
  constructor
  · rw [show (0.8164 : ℝ) = Real.sqrt (0.8164 ^ 2) from
      (Real.sqrt_sq (by norm_num)).symm]
    exact Real.sqrt_lt_sqrt (by norm_num) (by norm_num)
  · rw [show (0.8166 : ℝ) = Real.sqrt (0.8166 ^ 2) from
      (Real.sqrt_sq (by norm_num)).symm]
    exact Real.sqrt_lt_sqrt (by norm_num) (by norm_num)

/-- C2: `health_data_normalize` preserves the shape and each entry is
`(D[i][j] - mean_j) / sqrt (variance_j + 1e-8)` with the column mean and
population variance (divisor = row count); in particular
`standardize [[1],[2],[3]] ≈ [[-1.2247],[0],[1.2247]]`. -/
theorem C2_standardize_formula_and_example :
    (∀ (data : List (List ℝ)) (C : ℕ),
      (∀ row ∈ data, row.length = C) →
      (health_data_normalize data).length = data.length ∧
      (∀ i, i < data.length →
        ((health_data_normalize data).getD i []).length = C) ∧
      (∀ i j, i < data.length → j < C →
        ((health_data_normalize data).getD i []).getD j 0 =
          ((data.getD i []).getD j 0 -
              (∑ k ∈ Finset.range data.length,
                (data.getD k []).getD j 0) / data.length) /
            Real.sqrt
              ((∑ k ∈ Finset.range data.length,
                  ((data.getD k []).getD j 0 -
                    (∑ m ∈ Finset.range data.length,
                      (data.getD m []).getD j 0) / data.length) ^ 2) /
                data.length + 1e-8))) ∧
    (∃ a b c : ℝ,
      health_data_normalize [[1], [2], [3]] = [[a], [b], [c]] ∧
      |a - (-1.2247)| < 1 / 1000 ∧ b = 0 ∧ |c - 1.2247| < 1 / 1000) := by
  constructor
  · intro data C hrows
    have hmem : ∀ i, i < data.length → data.getD i [] ∈ data := by
      intro i hi
      rw [List.getD_eq_getElem _ [] hi]
      exact List.getElem_mem hi
    refine ⟨by simp [health_data_normalize], ?_, ?_⟩
    · intro i hi
      rw [health_data_normalize_getD_row data i hi, List.length_map,
        List.length_range, hrows _ (hmem i hi)]
    · intro i j hi hj
      have hj' : j < (data.getD i []).length := by
        rw [hrows _ (hmem i hi)]
        exact hj
      rw [health_data_normalize_entry data i j hi hj',
        colVar_eq data j, colMean_eq data j]
  · obtain ⟨hlo, hhi⟩ := sqrt_two_thirds_eps_bounds
    have hpos : 0 < Real.sqrt (2 / 3 + 1e-8) := by linarith
    have hinv1 : 1 / Real.sqrt (2 / 3 + 1e-8) < 1.225 := by
      rw [div_lt_iff₀ hpos]
      linarith
    have hinv2 : (1.2242 : ℝ) < 1 / Real.sqrt (2 / 3 + 1e-8) := by
      rw [lt_div_iff₀ hpos]
      linarith
    refine ⟨(1 - 2) / Real.sqrt (2 / 3 + 1e-8), 0,
      (3 - 2) / Real.sqrt (2 / 3 + 1e-8), ?_, ?_, rfl, ?_⟩
    · have hcol : column [[1], [2], [3]] 0 = [(1 : ℝ), 2, 3] := by
        norm_num [column]
      have hmean : colMean [(1 : ℝ), 2, 3] = 2 := by
        norm_num [colMean]
      have hvar : colVar [(1 : ℝ), 2, 3] = 2 / 3 := by
        norm_num [colVar, colMean]
      simp only [health_data_normalize, List.map_cons, List.map_nil]
      norm_num [List.range_succ, hcol, hmean, hvar]
    · rw [show (1 - 2 : ℝ) / Real.sqrt (2 / 3 + 1e-8) =
        -(1 / Real.sqrt (2 / 3 + 1e-8)) from by ring, abs_lt]
      constructor <;> linarith
    · rw [show (3 - 2 : ℝ) / Real.sqrt (2 / 3 + 1e-8) =
        1 / Real.sqrt (2 / 3 + 1e-8) from by ring, abs_lt]
      constructor <;> linarith

/-- Witness for C2's universally quantified part, at the example input. -/
theorem C2_witness :
    ((health_data_normalize [[1], [2], [3]]).getD 0 []).getD 0 0 =
      ((([[1], [2], [3]] : List (List ℝ)).getD 0 []).getD 0 0 -
          (∑ k ∈ Finset.range 3,
            (([[1], [2], [3]] : List (List ℝ)).getD k []).getD 0 0) / 3) /
        Real.sqrt
          ((∑ k ∈ Finset.range 3,
              ((([[1], [2], [3]] : List (List ℝ)).getD k []).getD 0 0 -
                (∑ m ∈ Finset.range 3,
                  (([[1], [2], [3]] : List (List ℝ)).getD m []).getD 0 0) /
                  3) ^ 2) / 3 + 1e-8) := by
  have h := ((C2_standardize_formula_and_example.1 [[1], [2], [3]] 1
    (by simp)).2.2) 0 0 (by simp) (by simp)
  simpa using h

/-- Witness for C1's universally quantified part, at the example input. -/
theorem C1_witness :
    (tcm_syndrome_analysis [1, 1] [1, 1] [[1, 1]]).getD 0 0 =
      sigmoid (∑ j ∈ Finset.range 2,
        ([1, 1] : List ℝ).getD j 0 * ([1, 1] : List ℝ).getD j 0 *
          (([[1, 1]] : List (List ℝ)).getD 0 []).getD j 0) := by
  have h := (C1_syndrome_formula_and_example.1 [1, 1] [1, 1] [[1, 1]]
    (by simp) (by simp)).2 0 (by simp)
  simpa using h

/-- C4: every element of the vector returned by `tcm_syndrome_analysis`
lies strictly between 0 and 1, never equal to either bound. -/
theorem C4_syndrome_score_in_open_unit_interval
    (s w : List ℝ) (P : List (List ℝ)) (x : ℝ)
    (hx : x ∈ tcm_syndrome_analysis s w P) : 0 < x ∧ x < 1 := by
  obtain ⟨row, _, rfl⟩ := List.mem_map.mp hx
  exact ⟨sigmoid_pos _, sigmoid_lt_one _⟩

/-- Witness for C4 at `s = w = []`, `P = [[]]`. -/
theorem C4_witness : 0 < sigmoid 0 ∧ sigmoid 0 < 1 :=
  C4_syndrome_score_in_open_unit_interval [] [] [[]] (sigmoid 0)
    (by simp [tcm_syndrome_analysis])

/-- C5: `biometric_processing` preserves the matrix shape; each element
with value `v` maps to `tanh (v - t)` when `v > t` and to `v * 0.1`
otherwise; the comparison is strict, so an element exactly equal to the
threshold takes the scaled branch. -/
theorem C5_threshold_transform_spec (B : List (List ℝ)) (t : ℝ) :
    (biometric_processing B t).length = B.length ∧
    (∀ i, i < B.length →
      ((biometric_processing B t).getD i []).length =
        (B.getD i []).length) ∧
    (∀ i j, i < B.length → j < (B.getD i []).length →
      ((biometric_processing B t).getD i []).getD j 0 =
        (if (B.getD i []).getD j 0 > t
         then Real.tanh ((B.getD i []).getD j 0 - t)
         else (B.getD i []).getD j 0 * 0.1)) ∧
    (∀ i j, i < B.length → j < (B.getD i []).length →
      (B.getD i []).getD j 0 = t →
      ((biometric_processing B t).getD i []).getD j 0 =
        (B.getD i []).getD j 0 * 0.1) := by
  have hrow : ∀ i, i < B.length →
      (biometric_processing B t).getD i [] =
        (B.getD i []).map (fun value =>
          if value > t then Real.tanh (value - t) else value * 0.1) := by
    intro i hi
    simp only [biometric_processing]
    exact getD_map _ B i hi [] []
  have hentry : ∀ i j, i < B.length → j < (B.getD i []).length →
      ((biometric_processing B t).getD i []).getD j 0 =
        (if (B.getD i []).getD j 0 > t
         then Real.tanh ((B.getD i []).getD j 0 - t)
         else (B.getD i []).getD j 0 * 0.1) := by
    intro i j hi hj
    rw [hrow i hi, getD_map _ _ j hj 0 0]
  refine ⟨by simp [biometric_processing], ?_, hentry, ?_⟩
  · intro i hi
    rw [hrow i hi, List.length_map]
  · intro i j hi hj hvt
    rw [hentry i j hi hj, if_neg (by rw [hvt]; exact lt_irrefl t)]

/-- Witness for C5 at `B = [[1]]`, `t = 1`: the entry equals the
threshold, so the scaled branch is taken. -/
theorem C5_witness :
    ((biometric_processing [[(1 : ℝ)]] 1).getD 0 []).getD 0 0 = 1 * 0.1 := by
  have h := (C5_threshold_transform_spec [[(1 : ℝ)]] 1).2.2.2 0 0
    (by simp) (by simp) (by simp)
  simpa using h

/-- C6: whenever the profile norm or a database row's norm is exactly 0,
`nutrition_optimization` returns exactly 0 for that row. -/
theorem C6_cosine_zero_norm_gives_zero
    (p : List ℝ) (db : List (List ℝ)) (i : ℕ) (hi : i < db.length)
    (h : Real.sqrt (sqnorm p) = 0 ∨
      Real.sqrt (sqnorm (db.getD i [])) = 0) :
    (nutrition_optimization p db).getD i 0 = 0 := by
  simp only [nutrition_optimization]
  rw [getD_map _ db i hi 0 []]
  rcases h with h | h
  · rw [if_neg]
    rintro ⟨h1, _⟩
    rw [h] at h1
    exact lt_irrefl 0 h1
  · rw [if_neg]
    rintro ⟨_, h2⟩
    rw [h] at h2
    exact lt_irrefl 0 h2

/-- Witness for C6: an all-zero profile against a nonzero food row. -/
theorem C6_witness :
    (nutrition_optimization [0, 0] [[5, 7]]).getD 0 0 = 0 :=
  C6_cosine_zero_norm_gives_zero [0, 0] [[5, 7]] 0 (by simp)
    (Or.inl (by norm_num [sqnorm]))

/-- C7: when the profile has nonzero norm and a database row is a positive
scalar multiple of the profile, `nutrition_optimization` returns exactly 1
for that row. -/
theorem C7_cosine_scalar_multiple_gives_one
    (p : List ℝ) (db : List (List ℝ)) (c : ℝ) (i : ℕ)
    (hi : i < db.length) (hc : 0 < c)
    (hp : Real.sqrt (sqnorm p) ≠ 0)
    (hrow : db.getD i [] = p.map (fun x => c * x)) :
    (nutrition_optimization p db).getD i 0 = 1 := by
  have hS : 0 < sqnorm p := by
    rcases lt_or_eq_of_le (sqnorm_nonneg p) with h | h
    · exact h
    · exact absurd (by rw [← h, Real.sqrt_zero]) hp
  have hsp : 0 < Real.sqrt (sqnorm p) := Real.sqrt_pos.mpr hS
  have hsq : Real.sqrt (c ^ 2 * sqnorm p) = c * Real.sqrt (sqnorm p) := by
    rw [Real.sqrt_mul (sq_nonneg c), Real.sqrt_sq hc.le]
  have hself : Real.sqrt (sqnorm p) * Real.sqrt (sqnorm p) = sqnorm p :=
    Real.mul_self_sqrt hS.le
  simp only [nutrition_optimization]
  rw [getD_map _ db i hi 0 [], hrow, dot_self_scale, sqnorm_map_scale, hsq]
  rw [if_pos ⟨hsp, by positivity⟩]
  rw [show Real.sqrt (sqnorm p) * (c * Real.sqrt (sqnorm p)) =
      c * sqnorm p from by linear_combination c * hself]
  exact div_self (ne_of_gt (mul_pos hc hS))

/-- Witness for C7 at `p = [1]`, `db = [[2]]`, `c = 2`. -/
theorem C7_witness : (nutrition_optimization [1] [[2]]).getD 0 0 = 1 :=
  C7_cosine_scalar_multiple_gives_one [1] [[2]] 2 0 (by simp) (by norm_num)
    (by rw [show sqnorm [1] = 1 by norm_num [sqnorm], Real.sqrt_one]
        norm_num)
    (by norm_num)

/-- C8 (amended): for every matrix whose rows have width `C` and every
column index `j < C`, the standardized column has mean exactly 0 and
population variance exactly `V / (V + 1e-8)` (so within `1e-4` of 1
whenever the input column's variance `V` is at least `1e-4`), and a
constant input column yields an all-zero output column. -/
theorem C8_standardized_column_statistics (data : List (List ℝ)) (C j : ℕ)
    (hrows : ∀ row ∈ data, row.length = C) (hj : j < C)
    (hne : data ≠ []) :
    colMean (column (health_data_normalize data) j) = 0 ∧
    colVar (column (health_data_normalize data) j) =
      colVar (column data j) / (colVar (column data j) + 1e-8) ∧
    (1e-4 ≤ colVar (column data j) →
      |colVar (column (health_data_normalize data) j) - 1| < 1e-4) ∧
    ((∃ v, ∀ x ∈ column data j, x = v) →
      ∀ y ∈ column (health_data_normalize data) j, y = 0) := by
  refine ⟨colMean_normalize_eq_zero data C j hrows hj hne,
    colVar_normalize data C j hrows hj hne, ?_, ?_⟩
  · intro hV
    rw [colVar_normalize data C j hrows hj hne]
    have hVpos : (0 : ℝ) < colVar (column data j) + 1e-8 := by linarith
    rw [abs_lt]
    constructor
    · rw [div_sub' _ _ _ (ne_of_gt hVpos), lt_div_iff₀ hVpos]
      nlinarith
    · rw [div_sub' _ _ _ (ne_of_gt hVpos), div_lt_iff₀ hVpos]
      nlinarith
  · rintro ⟨v, hv⟩ y hy
    rw [column_normalize data C j hrows hj] at hy
    obtain ⟨x, hx, rfl⟩ := List.mem_map.mp hy
    have hn0 : ((column data j).length : ℝ) ≠ 0 := by
      rw [column, List.length_map]
      exact Nat.cast_ne_zero.mpr (List.length_pos.mpr hne).ne'
    have hmean : colMean (column data j) = v := by
      rw [colMean, sum_of_const v _ hv]
      field_simp
    rw [hmean, hv x hx, sub_self, zero_div]

/-- Witness for C8 at the matrix `[[1],[2],[3]]` (column variance `2/3`). -/
theorem C8_witness :
    colMean (column (health_data_normalize [[1], [2], [3]]) 0) = 0 ∧
    |colVar (column (health_data_normalize [[1], [2], [3]]) 0) - 1| <
      1e-4 := by
  have h := C8_standardized_column_statistics [[1], [2], [3]] 1 0
    (by simp) (by norm_num) (by simp)
  exact ⟨h.1, h.2.2.1 (by norm_num [colVar, colMean, column])⟩

/-- Counterexample to C8 as stated: the input column `[0, 1/100000]` has
two distinct values, yet the standardized column's variance is `1/401`,
nowhere near 1. -/
theorem C8_counterexample :
    (0 : ℝ) ≠ 1 / 100000 ∧
    colVar (column (health_data_normalize [[0], [1 / 100000]]) 0) =
      1 / 401 ∧
    colVar (column (health_data_normalize [[0], [1 / 100000]]) 0) <
      1 / 100 := by
  have h := colVar_normalize [[(0 : ℝ)], [1 / 100000]] 1 0
    (by simp) (by norm_num) (by simp)
  have hV : colVar (column [[(0 : ℝ)], [1 / 100000]] 0) =
      1 / 40000000000 := by
    norm_num [colVar, colMean, column]
  rw [h, hV]
  norm_num

/-- C3 (amended): for a query of length `L ≥ 1` and database rows of
width `L`, every entry of `pattern_matching` is a finite value
`(Σ_j exp (-(q[j]-row[j])²)) / L` lying in `(0, 1]`, equal to 1 exactly
when the row equals the query. -/
theorem C3_gaussian_match_amended (q : List ℝ) (db : List (List ℝ))
    (hq : 1 ≤ q.length) (hw : ∀ row ∈ db, row.length = q.length) :
    (pattern_matching q db).length = db.length ∧
    ∀ i, i < db.length → ∃ v : ℝ,
      (pattern_matching q db).getD i none = some v ∧
      v = (∑ k ∈ Finset.range q.length,
        Real.exp (-(q.getD k 0 - (db.getD i []).getD k 0) ^ 2)) /
        q.length ∧
      0 < v ∧ v ≤ 1 ∧ (v = 1 ↔ db.getD i [] = q) := by
  refine ⟨by simp [pattern_matching], ?_⟩
  intro i hi
  have hmem : db.getD i [] ∈ db := by
    rw [List.getD_eq_getElem _ [] hi]
    exact List.getElem_mem hi
  have hlen : (db.getD i []).length = q.length := hw _ hmem
  have hL0 : ¬ (((db.getD i []).length : ℝ) = 0) := by
    rw [hlen]
    exact_mod_cast by omega
  have hentry : (pattern_matching q db).getD i none =
      some (gaussRow q (db.getD i []) / ((db.getD i []).length : ℕ)) := by
    simp only [pattern_matching]
    rw [getD_map _ db i hi none [], fdiv, if_neg hL0]
  obtain ⟨hpos, hle, hiff⟩ :=
    gauss_quotient_props q (db.getD i []) hq hlen
  refine ⟨gaussRow q (db.getD i []) / ((db.getD i []).length : ℕ),
    hentry, ?_, hpos, hle, hiff⟩
  rw [gaussRow_eq q (db.getD i []) hlen, hlen]

/-- Witness for C3's amended theorem at `q = [0]`, `db = [[0]]`. -/
theorem C3_witness : ∃ v : ℝ,
    (pattern_matching [0] [[0]]).getD 0 none = some v ∧
    v = (∑ k ∈ Finset.range 1,
      Real.exp (-((([0] : List ℝ).getD k 0 -
        (([[0]] : List (List ℝ)).getD 0 []).getD k 0)) ^ 2)) / 1 ∧
    0 < v ∧ v ≤ 1 ∧
    (v = 1 ↔ ([[0]] : List (List ℝ)).getD 0 [] = [0]) := by
  have h := (C3_gaussian_match_amended [0] [[0]] (by simp) (by simp)).2
    0 (by simp)
  simpa using h

/-- Counterexample to C3 as stated: with an empty query and one
zero-width database row (`L = 0`), the single returned entry is the
non-finite `none` (0/0, i.e. NaN), so it is not a value in `(0, 1]`. -/
theorem C3_counterexample :
    ¬ (∀ x ∈ pattern_matching [] [[]], ∃ v : ℝ,
        x = some v ∧ 0 < v ∧ v ≤ 1) := by
  intro h
  obtain ⟨v, hv, _⟩ := h none (by simp [pattern_matching, fdiv])
  exact Option.noConfusion hv

/-- C10: for a database with zero-width rows, each per-row accumulated
Gaussian sum is 0 and every entry of the result is the non-finite IEEE
value (0 divided by the zero row length, i.e. NaN), modelled by `none`. -/
theorem C10_gaussian_match_zero_width_is_nan (q : List ℝ)
    (db : List (List ℝ)) (hrows : ∀ row ∈ db, row = []) :
    (pattern_matching q db).length = db.length ∧
    (∀ row ∈ db, gaussRow q row = 0) ∧
    (∀ x ∈ pattern_matching q db, x = none) := by
  refine ⟨by simp [pattern_matching], ?_, ?_⟩
  · intro row hrow
    rw [hrows row hrow]
    simp [gaussRow]
  · intro x hx
    simp only [pattern_matching] at hx
    obtain ⟨row, hrow, rfl⟩ := List.mem_map.mp hx
    rw [hrows row hrow]
    simp [fdiv]

/-- Witness for C10 at `q = []`, `db = [[]]`. -/
theorem C10_witness : (pattern_matching [] [[]]).getD 0 none = none :=
  (C10_gaussian_match_zero_width_is_nan [] [[]] (by simp)).2.2
    ((pattern_matching [] [[]]).getD 0 none)
    (by simp [pattern_matching, fdiv])

end TCMAnalysis
